import Mathlib

/-!
Verification of the ÅOP loan calculator core (`src/app/core/calc/calc.js`).

The JavaScript source computes with IEEE doubles; this development embeds
the same algorithms over exact rationals (`ℚ`).  JavaScript behaviours that
have no rational counterpart are noted at the definition they concern:
`Array.prototype.reduce` called on an empty array without an initial value
throws (here the empty case is given the unreachable default `0`; the only
caller, the rate solver, guards the cashflow to be non-empty first), and a
division by zero yields `Infinity`/`NaN` in JavaScript while `ℚ` makes it
`0` (either way the result differs from any finite expected value, which is
all the claims below need).
-/

namespace Aop

/-- APF - Annuity Principal Factor, from `apf(rate, n)`:
`rate > 0 ? rate / (1 - Math.pow(1 + rate, -n)) : (n > 0 ? 1 / n : 1)`.
`Math.pow(1 + rate, -n)` for a natural period count `n` is `((1+rate)^n)⁻¹`. -/
def apf (rate : ℚ) (n : ℕ) : ℚ :=
  if rate > 0 then rate / (1 - ((1 + rate) ^ n)⁻¹)
  else if n > 0 then 1 / (n : ℚ) else 1

/-- Facade `pmt: (p, rate, n) => p * apf(rate, n)`. -/
def pmt (p rate : ℚ) (n : ℕ) : ℚ := p * apf rate n

/-- The indexed fold underlying `NPV`'s `cashflow.reduce`.  `reduce` without
an initial value seeds the accumulator with element 0 and first calls the
callback at index 1, so the walk below starts at `i = 1` with `acc = cf[0]`;
the callback's `i > 0 ? ... : CFn` test is kept verbatim (its else branch is
dead for `i ≥ 1`). -/
def npvAux (r : ℚ) : List ℚ → ℕ → ℚ → ℚ
  | [], _, acc => acc
  | c :: t, i, acc => npvAux r t (i + 1) (if i > 0 then acc + c / r ^ i else c)

/-- NPV - Net Present Value, from `NPV(cashflow, rate)`:
`const r = rate + 1; return cashflow.reduce((NPVn, CFn, i) => i > 0 ? NPVn + CFn / Math.pow(r, i) : CFn)`.
On the empty list JavaScript `reduce` throws; `0` stands in for that
unreachable case. -/
def NPV (cashflow : List ℚ) (rate : ℚ) : ℚ :=
  match cashflow with
  | [] => 0
  | c0 :: rest => npvAux (rate + 1) rest 1 c0

/-- The indexed fold underlying `dNPV`'s `cashflow.reduce` (again without an
initial value, so `acc` starts as `cf[0]` and `i` starts at 1; the callback's
`i > 0 ? ... : 0` else branch is dead). -/
def dnpvAux (r : ℚ) : List ℚ → ℕ → ℚ → ℚ
  | [], _, acc => acc
  | c :: t, i, acc => dnpvAux r t (i + 1) (if i > 0 then acc - i * c / r ^ (i + 1) else 0)

/-- dNPV - first order derivative used as the Newton denominator, from
`dNPV(cashflow, rate)`:
`const r = rate + 1; return cashflow.reduce((NPVn, CFn, i) => i > 0 ? NPVn - i * CFn / Math.pow(r, i + 1) : 0)`. -/
def dNPV (cashflow : List ℚ) (rate : ℚ) : ℚ :=
  match cashflow with
  | [] => 0
  | c0 :: rest => dnpvAux (rate + 1) rest 1 c0

/-- `epsMax = 1e-10`, the convergence tolerance of the solver. -/
def epsMax : ℚ := 1 / 10 ^ 10

/-- One Newton update `irr2 = irr - npv / dNPV(cashflow, irr)`. -/
def newtonStep (cf : List ℚ) (irr : ℚ) : ℚ :=
  irr - NPV cf irr / dNPV cf irr

/-- The convergence test of one solver iteration at current iterate `irr`:
`(dirr < epsMax) || (Math.abs(npv) < epsMax)` with
`dirr = Math.abs(irr2 - irr)` and `npv = NPV(cashflow, irr)`. -/
def converged (cf : List ℚ) (irr : ℚ) : Prop :=
  |newtonStep cf irr - irr| < epsMax ∨ |NPV cf irr| < epsMax

instance (cf : List ℚ) (irr : ℚ) : Decidable (converged cf irr) := by
  unfold converged; infer_instance

/-- The `for (let iteration = 0; iteration < iterMax; iteration++)` body of
`IRR`, with the remaining iteration count as fuel; `none` models falling out
of the loop (which makes `IRR` return `NaN`), `some` models the `return irr`
after the convergence test fires. -/
def newtonLoop (cf : List ℚ) : ℕ → ℚ → Option ℚ
  | 0, _ => none
  | k + 1, irr =>
    let npv := NPV cf irr
    let irr2 := irr - npv / dNPV cf irr
    let dirr := |irr2 - irr|
    if dirr < epsMax ∨ |npv| < epsMax then some irr2 else newtonLoop cf k irr2

/-- IRR - Internal Rate of Return, from `IRR(cashflow, initialguess)`.
`iterMax = 50`.  The guard is the source's
`cashflow.some((CFn) => CFn > 0) && cashflow.some((CFn) => CFn < 0)`;
the `NaN` sentinel is modelled as `none`. -/
def IRR (cashflow : List ℚ) (initialguess : ℚ) : Option ℚ :=
  if cashflow.any (fun c => c > 0) && cashflow.any (fun c => c < 0) then
    newtonLoop cashflow 50 initialguess
  else none

/-- One period block of `options.periods` (see the `cashflow` doc comment in
the source): `{ periods, interest, payment, fee, usePayment }`. -/
structure Seg where
  periods : ℕ
  interest : ℚ
  payment : ℚ
  fee : ℚ
  usePayment : Bool
deriving DecidableEq

/-- The `options` object of `cashflow`:
`{ costs, periods, includeCost, roundedPayment }`. -/
structure ScheduleOptions where
  costs : ℚ
  periods : List Seg
  includeCost : Bool
  roundedPayment : Bool
deriving DecidableEq

/-- One element of `loanPeriods`:
`{ interest: period.interest / 100 / ppy, fee: period.fee, payment, end }`
(`end` is a Lean keyword, rendered `endP`). -/
structure LoanPeriod where
  interest : ℚ
  fee : ℚ
  payment : ℚ
  endP : ℕ
deriving DecidableEq

/-- One element of `paymentplan`:
`{ i, repayed, fee, interest, payment, balance }`. -/
structure Entry where
  i : ℕ
  repayed : ℚ
  fee : ℚ
  interest : ℚ
  payment : ℚ
  balance : ℚ
deriving DecidableEq

/-- The record returned by `cashflow`. -/
structure AmortResult where
  duration : ℕ
  principal : ℚ
  totalpayed : ℚ
  totalinterest : ℚ
  paymentplan : List Entry
  cashflow : List ℚ

/-- Out-of-range list reads below use this dummy with `List.getD`. -/
def dEntry : Entry := ⟨0, 0, 0, 0, 0, 0⟩

/-- Dummy segment for `List.getD`. -/
def dSeg : Seg := ⟨0, 0, 0, 0, false⟩

/-- Dummy loan period for `List.getD`. -/
def dLP : LoanPeriod := ⟨0, 0, 0, 0⟩

/-- The hard-coded fallback options object of `cashflow` (used when the
caller passes no options). -/
def defaultOptions : ScheduleOptions :=
  ⟨1800, [⟨24, 10, 0, 25, false⟩], true, false⟩

/-- `apfs = opt.periods.map((period, index) => apf(period.interest / 100 / ppy, period.periods))`. -/
def apfsOf (ppy : ℚ) (segs : List Seg) : List ℚ :=
  segs.map fun seg => apf (seg.interest / 100 / ppy) seg.periods

/-- `deltaPrincipals = opt.periods.map((period, index) => period.usePayment ? period.payment / apfs[index] : -1)`;
`apfs[index]` is exactly the annuity factor of segment `index`, inlined here. -/
def deltasOf (ppy : ℚ) (segs : List Seg) : List ℚ :=
  segs.map fun seg =>
    if seg.usePayment then seg.payment / apf (seg.interest / 100 / ppy) seg.periods
    else -1

/-- The forward propagation loop over `deltaPrincipals` (paired with their
segments): starting from the full principal it walks segments in order,
stops (`break`) at the first unresolved delta (`dP < 0`), and otherwise
pushes `P = (prev - dP) * (1 + rate)^n`.  The source reads
`principalsForw[index]`, which at that point is the most recently pushed
value, carried here as `prev`. -/
def forwardAux (ppy : ℚ) : List (ℚ × Seg) → ℚ → List ℚ
  | [], _ => []
  | (dP, seg) :: rest, prev =>
    if dP < 0 then []
    else
      let P := (prev - dP) * (1 + seg.interest / 100 / ppy) ^ seg.periods
      P :: forwardAux ppy rest P

/-- The backward propagation loop: the source walks `deltaPrincipals` from
the last index down, stops at the first unresolved delta, and `unshift`s
`P = dP + principalsRev[0] / (1 + rate)^n` where `principalsRev[0]` is the
previously computed value (initially `0`), carried here as `acc`.  The input
is the reversed `(delta, segment)` list, so the output is in processing
order (deepest segment first). -/
def backwardAux (ppy : ℚ) : List (ℚ × Seg) → ℚ → List ℚ
  | [], _ => []
  | (dP, seg) :: rest, acc =>
    if dP < 0 then []
    else
      let P := dP + acc / (1 + seg.interest / 100 / ppy) ^ seg.periods
      P :: backwardAux ppy rest P

/-- `principals = principalsForw.concat(principalsRev)` where
`principalsForw` starts as `[principal]` and `principalsRev` ends with its
initial `0` (the `unshift` order makes it the reverse of processing order). -/
def principalsOf (ppy : ℚ) (segs : List Seg) (principal : ℚ) : List ℚ :=
  (principal :: forwardAux ppy ((deltasOf ppy segs).zip segs) principal) ++
    ((backwardAux ppy ((deltasOf ppy segs).zip segs).reverse 0).reverse ++ [0])

/-- The unrounded computed payment of the segment at position `idx`:
`(principals[index] - principals[index + 1] / Math.pow(1 + period.interest / 100 / ppy, period.periods)) * apfs[index]`.
A JavaScript out-of-range read gives `undefined` (hence `NaN` arithmetic);
`getD _ 0` stands in for that degenerate case. -/
def rawPayment (ppy : ℚ) (principals apfs : List ℚ) (seg : Seg) (idx : ℕ) : ℚ :=
  (principals.getD idx 0 -
      principals.getD (idx + 1) 0 / (1 + seg.interest / 100 / ppy) ^ seg.periods) *
    apfs.getD idx 0

/-- `loanPeriods = opt.periods.map(...)` with the closure-mutated running
`end`: each segment yields
`{ interest: period.interest / 100 / ppy, fee: period.fee, payment, end }`,
where `payment` is the fixed payment when `usePayment` is set, else the
computed `rawPayment`, ceiled (`Math.ceil`) when `roundedPayment` is set. -/
def mkLoanPeriods (ppy : ℚ) (rounded : Bool) (principals apfs : List ℚ) :
    List Seg → ℕ → ℕ → List LoanPeriod
  | [], _, _ => []
  | seg :: rest, idx, e =>
    let e2 := e + seg.periods
    let pay0 := if seg.usePayment then seg.payment
      else rawPayment ppy principals apfs seg idx
    let pay := if seg.usePayment = false ∧ rounded = true then (⌈pay0⌉ : ℚ) else pay0
    ⟨seg.interest / 100 / ppy, seg.fee, pay, e2⟩ ::
      mkLoanPeriods ppy rounded principals apfs rest (idx + 1) e2

/-- The month-by-month simulation `while (i <= 180 && balance >= 0.01)`.
The loop index `i` runs from 0 and the guard admits `i = 0, …, 180`, encoded
as `fuel = 181 - i` at the top-level call; the pair carries the produced
`paymentplan` suffix together with the final value of `i` (which the source
returns as `duration`).  `loanPeriods.find((period) => i < period.end)`
failing is the `break`; the first period adds `opt.costs` to fee and payment
when the cost was not folded into the principal; the final period (when
`balance <= repayment`) repays exactly the remaining balance and sets the
balance to 0, after which the JavaScript loop guard `balance >= 0.01` fails. -/
def simLoop (lps : List LoanPeriod) (costs : ℚ) (includeCost : Bool) :
    ℕ → ℕ → ℚ → List Entry × ℕ
  | 0, i, _ => ([], i)
  | fuel + 1, i, b =>
    if b < 1 / 100 then ([], i)
    else
      match lps.find? (fun per => i < per.endP) with
      | none => ([], i)
      | some per =>
        let monthlyinterest := per.interest * b
        let extra : ℚ := if i = 0 ∧ includeCost = false then costs else 0
        let monthlyfee := per.fee + extra
        let paym := per.payment + per.fee + extra
        let repayment := per.payment - monthlyinterest
        if b > repayment then
          let r := simLoop lps costs includeCost fuel (i + 1) (b - repayment)
          (⟨i + 1, repayment, monthlyfee, monthlyinterest, paym, b - repayment⟩ :: r.1, r.2)
        else
          ([⟨i + 1, b, monthlyfee, monthlyinterest, b + monthlyinterest + monthlyfee, 0⟩], i + 1)

/-- `const opt = options || { ... }`: the fallback object of `cashflow`. -/
def optOf (options : Option ScheduleOptions) : ScheduleOptions :=
  options.getD defaultOptions

/-- `const principal = p + (opt.includeCost ? opt.costs : 0)`. -/
def principalOf (p : ℚ) (opt : ScheduleOptions) : ℚ :=
  p + (if opt.includeCost then opt.costs else 0)

/-- The fully resolved `loanPeriods` list of `cashflow`. -/
def lpsOf (p ppy : ℚ) (opt : ScheduleOptions) : List LoanPeriod :=
  mkLoanPeriods ppy opt.roundedPayment
    (principalsOf ppy opt.periods (principalOf p opt))
    (apfsOf ppy opt.periods) opt.periods 0 0

/-- The month-by-month simulation of `cashflow`, started at
`balance = principal`, `i = 0`, with the `i <= 180` guard as fuel `181`. -/
def simOf (p ppy : ℚ) (opt : ScheduleOptions) : List Entry × ℕ :=
  simLoop (lpsOf p ppy opt) opt.costs opt.includeCost 181 0 (principalOf p opt)

/-- `cashflow(p, ppy, options)`: schedule generator.  `options || {...}` is
modelled by an `Option` with the source's fallback object; the source's
`if (opt.periods)` test is always true here because `periods` is a total
field (an empty list makes the simulation `break` at once, matching a list
that covers no period).  The result's `cashflow` field is
`[-p].concat(paymentplan.map((plan) => plan.payment))`. -/
def cashflow (p ppy : ℚ) (options : Option ScheduleOptions) : AmortResult :=
  let opt := optOf options
  let r := simOf p ppy opt
  { duration := r.2
    principal := principalOf p opt
    totalpayed := r.1.foldl (fun total plan => total + plan.payment) 0
    totalinterest := r.1.foldl (fun total plan => total + plan.interest) 0
    paymentplan := r.1
    cashflow := -p :: r.1.map fun plan => plan.payment }

/-- The declining-balance recurrence of the spec's annuity property:
`b 0 = P`, `b (k+1) = b k * (1 + rate) - pm`. -/
def amortBal (P pm rate : ℚ) : ℕ → ℚ
  | 0 => P
  | k + 1 => amortBal P pm rate k * (1 + rate) - pm

/-- The balance-chain predicate of the simulation: each entry's recorded
balance is the running balance before it minus its recorded repayment. -/
def balChain : ℚ → List Entry → Prop
  | _, [] => True
  | b, e :: es => e.balance = b - e.repayed ∧ balChain e.balance es

instance balChainDec : ∀ (b : ℚ) (es : List Entry), Decidable (balChain b es)
  | _, [] => .isTrue trivial
  | b, e :: es =>
    have : Decidable (balChain e.balance es) := balChainDec e.balance es
    instDecidableAnd

/-! ## Valuation lemmas -/

lemma npvAux_eq (r : ℚ) :
    ∀ (l : List ℚ) (k : ℕ) (acc : ℚ), 0 < k →
      npvAux r l k acc =
        acc + ∑ i ∈ Finset.range l.length, l.getD i 0 / r ^ (k + i) := by
  intro l
  induction l with
  | nil => intro k acc _; simp [npvAux]
  | cons c t ih =>
    intro k acc hk
    simp only [npvAux, if_pos hk]
    rw [ih (k + 1) _ (Nat.succ_pos k), List.length_cons, Finset.sum_range_succ']
    simp only [List.getD_cons_succ, List.getD_cons_zero, Nat.add_zero]
    have hsum : ∑ i ∈ Finset.range t.length, t.getD i 0 / r ^ (k + 1 + i)
        = ∑ i ∈ Finset.range t.length, t.getD i 0 / r ^ (k + (i + 1)) := by
      refine Finset.sum_congr rfl fun i _ => ?_
      congr 2
      omega
    rw [hsum]
    ring

/-- Claim C7: for a non-empty cashflow, `NPV` returns `cashflow[0]` unscaled
plus `Σ_{i ≥ 1} cashflow[i] / (1+rate)^i` (here indexed over the tail); for
a single-element sequence the sum is empty, so that element is returned
unchanged. -/
theorem npv_matches_spec (cf : List ℚ) (rate : ℚ) (h : cf ≠ []) :
    NPV cf rate =
      cf.headD 0 + ∑ i ∈ Finset.range cf.tail.length,
        cf.tail.getD i 0 / (rate + 1) ^ (i + 1) := by
  match cf with
  | c0 :: rest =>
    simp only [NPV, List.headD_cons, List.tail_cons]
    rw [npvAux_eq (rate + 1) rest 1 c0 Nat.one_pos]
    congr 1
    refine Finset.sum_congr rfl fun i _ => ?_
    congr 2
    omega

/-- Witness for C7: a two-element cashflow evaluates to the spec's sum, and
a single-element cashflow comes back unchanged. -/
theorem npv_matches_spec_witness : NPV [(5 : ℚ)] 3 = 5 ∧ NPV [(2 : ℚ), 3] 1 = 7 / 2 := by
  constructor
  · have h := npv_matches_spec [(5 : ℚ)] 3 (by simp)
    simpa using h
  · have h := npv_matches_spec [(2 : ℚ), 3] 1 (by simp)
    norm_num [Finset.sum_range_succ] at h
    exact h

/-- Claim C1 (code bug): at cashflow `[1, 1]` and rate `0`, `dNPV` returns
`0`, not the claimed `Σ_{i ≥ 1} −i·cf[i]/(1+rate)^(i+1) = −1`: `reduce`
without an initial value seeds the accumulator with `cashflow[0]` (the
callback's `: 0` branch for `i = 0` is dead code), so the source adds
`cashflow[0]` unscaled where the claim (and the function's role as the
first-order derivative of `NPV`) requires a zero contribution. -/
theorem dNPV_at_failing_input : dNPV [1, 1] 0 = 0 ∧ (0 : ℚ) ≠ -1 := by
  constructor
  · show dnpvAux (0 + 1) [1] 1 1 = 0
    simp [dnpvAux]
  · norm_num

/-! ## Annuity factor -/

/-- Claim C4 counterexample: with positive rate and zero periods, `apf`
takes the formula branch and divides by `1 − (1+rate)^0 = 0`; the result
(`Infinity` in JavaScript, `0` over `ℚ`) is not the claimed `1`. -/
theorem apf_pos_rate_zero_periods_ne_one : apf (1 / 10) 0 ≠ 1 := by
  norm_num [apf]

/-- Claim C4 (amended): `apf` returns `rate / (1 − (1+rate)^(−n))` for every
`rate > 0` and every period count `n` (including `n = 0`, where this divides
by zero rather than returning 1); it returns `1/n` for `rate = 0`, `n > 0`,
and returns `1` only in the remaining case `rate = 0` (more precisely,
`rate ≤ 0`) and `n = 0`. -/
theorem apf_branches :
    (∀ (rate : ℚ) (n : ℕ), 0 < rate → apf rate n = rate / (1 - ((1 + rate) ^ n)⁻¹)) ∧
    (∀ n : ℕ, 0 < n → apf 0 n = 1 / (n : ℚ)) ∧ apf 0 0 = 1 := by
  refine ⟨fun rate n h => ?_, fun n h => ?_, by norm_num [apf]⟩
  · simp [apf, h]
  · simp [apf, h]

/-- Witness for C4 (amended): the positive-rate formula at `rate = 1`,
`n = 2`, and the linear branch at `rate = 0`, `n = 4`. -/
theorem apf_branches_witness :
    apf 1 2 = 1 / (1 - ((1 + 1 : ℚ) ^ 2)⁻¹) ∧ apf 0 4 = 1 / (4 : ℚ) := by
  refine ⟨apf_branches.1 1 2 one_pos, ?_⟩
  have h := apf_branches.2.1 4 (by norm_num)
  simpa using h

/-! ## Annuity amortization (claim C6) -/

lemma amortBal_closed (P pm rate : ℚ) (hr : rate ≠ 0) :
    ∀ k : ℕ, amortBal P pm rate k = P * (1 + rate) ^ k - pm * ((1 + rate) ^ k - 1) / rate := by
  intro k
  induction k with
  | zero => simp [amortBal]
  | succ k ih =>
    simp only [amortBal, ih, pow_succ]
    field_simp
    ring

/-- Claim C6: for positive principal, positive rate and a positive period
count, the fixed payment `pmt(P, rate, n) = P * apf(rate, n)` drives the
declining-balance recurrence `b₀ = P`, `bₖ₊₁ = bₖ·(1+rate) − pmt` to
exactly `bₙ = 0`. -/
theorem pmt_amortizes (P rate : ℚ) (n : ℕ) (hP : 0 < P) (hr : 0 < rate) (hn : 0 < n) :
    amortBal P (pmt P rate n) rate n = 0 := by
  have h1r : (0 : ℚ) < 1 + rate := by linarith
  have hx : (1 : ℚ) < (1 + rate) ^ n := one_lt_pow₀ (by linarith) hn.ne'
  have hx0 : ((1 : ℚ) + rate) ^ n ≠ 0 := (pow_pos h1r n).ne'
  have hx1 : ((1 : ℚ) + rate) ^ n - 1 ≠ 0 := sub_ne_zero.mpr hx.ne'
  have hpm : pmt P rate n = P * rate * (1 + rate) ^ n / ((1 + rate) ^ n - 1) := by
    rw [pmt, apf, if_pos hr]
    rw [show (1 : ℚ) - ((1 + rate) ^ n)⁻¹ = ((1 + rate) ^ n - 1) / (1 + rate) ^ n from by
      field_simp]
    rw [div_div_eq_mul_div]
    ring
  rw [amortBal_closed P _ rate hr.ne' n, hpm]
  field_simp
  ring

/-- Witness for C6: principal 1 at 100% periodic interest over one period
gives payment 2 and a zero balance after the single period. -/
theorem pmt_amortizes_witness :
    (0 : ℚ) < 1 ∧ amortBal 1 (pmt 1 1 1) 1 1 = 0 :=
  ⟨one_pos, pmt_amortizes 1 1 1 one_pos one_pos Nat.one_pos⟩

/-! ## Rate solver (claim C2) -/

lemma newtonLoop_none_iff (cf : List ℚ) :
    ∀ (k : ℕ) (x : ℚ),
      newtonLoop cf k x = none ↔ ∀ j < k, ¬ converged cf ((newtonStep cf)^[j] x) := by
  intro k
  induction k with
  | zero => intro x; simp [newtonLoop]
  | succ k ih =>
    intro x
    have heq : newtonLoop cf (k + 1) x =
        if converged cf x then some (newtonStep cf x)
        else newtonLoop cf k (newtonStep cf x) := by
      simp only [newtonLoop, newtonStep, converged]
    rw [heq]
    by_cases h : converged cf x
    · rw [if_pos h]
      constructor
      · intro hsome; exact absurd hsome (by simp)
      · intro hall; exact absurd h (by simpa using hall 0 (Nat.succ_pos k))
    · rw [if_neg h, ih (newtonStep cf x)]
      constructor
      · intro hall j hj
        cases j with
        | zero => simpa using h
        | succ j =>
          have hh := hall j (by omega)
          simpa [Function.iterate_succ_apply] using hh
      · intro hall j hj
        have hh := hall (j + 1) (by omega)
        simpa [Function.iterate_succ_apply] using hh

/-- Claim C2: `IRR` returns the not-a-number sentinel (modelled `none`) —
and, being a total function, never throws — exactly when the cashflow lacks
a strictly positive or a strictly negative entry, or when none of the 50
Newton iterates passes a convergence test (`|Δrate| < 1e-10` or
`|NPV| < 1e-10`); in every other case it returns a numeric rate (`some`). -/
theorem irr_none_iff (cf : List ℚ) (g : ℚ) :
    IRR cf g = none ↔
      ¬ ((∃ a ∈ cf, 0 < a) ∧ (∃ a ∈ cf, a < 0)) ∨
        ∀ j < 50, ¬ converged cf ((newtonStep cf)^[j] g) := by
  simp only [IRR]
  by_cases h : ((cf.any fun c => c > 0) && (cf.any fun c => c < 0)) = true
  · rw [if_pos h, newtonLoop_none_iff]
    simp only [Bool.and_eq_true, List.any_eq_true, decide_eq_true_eq] at h
    constructor
    · exact fun hall => Or.inr hall
    · rintro (hneg | hall)
      · exact absurd ⟨h.1, h.2⟩ hneg
      · exact hall
  · rw [if_neg h]
    simp only [Bool.and_eq_true, List.any_eq_true, decide_eq_true_eq] at h
    exact ⟨fun _ => Or.inl h, fun _ => rfl⟩

/-! ## Simulation loop structure (claims C3, C5, C10) -/

lemma simLoop_length_le (lps : List LoanPeriod) (c : ℚ) (ic : Bool) :
    ∀ (fuel i : ℕ) (b : ℚ), (simLoop lps c ic fuel i b).1.length ≤ fuel := by
  intro fuel
  induction fuel with
  | zero => intro i b; simp [simLoop]
  | succ fuel ih =>
    intro i b
    simp only [simLoop]
    split
    · simp
    · cases hfind : lps.find? (fun per => i < per.endP) with
      | none => simp
      | some per =>
        simp only []
        split
        · simpa using ih (i + 1) _
        · simp

lemma simLoop_index_spec (lps : List LoanPeriod) (c : ℚ) (ic : Bool) :
    ∀ (fuel i : ℕ) (b : ℚ),
      (simLoop lps c ic fuel i b).2 = i + (simLoop lps c ic fuel i b).1.length ∧
      ∀ k, k < (simLoop lps c ic fuel i b).1.length →
        ((simLoop lps c ic fuel i b).1.getD k dEntry).i = i + k + 1 := by
  intro fuel
  induction fuel with
  | zero => intro i b; simp [simLoop]
  | succ fuel ih =>
    intro i b
    simp only [simLoop]
    split
    · simp
    · cases hfind : lps.find? (fun per => i < per.endP) with
      | none => simp
      | some per =>
        simp only []
        split
        · obtain ⟨h1, h2⟩ := ih (i + 1) (b - (per.payment - per.interest * b))
          constructor
          · simp only [List.length_cons, h1]
            omega
          · intro k hk
            cases k with
            | zero => simp
            | succ k =>
              simp only [List.getD_cons_succ]
              have hh := h2 k (by simpa using hk)
              rw [hh]
              omega
        · refine ⟨by simp, fun k hk => ?_⟩
          have hk0 : k = 0 := by simp at hk; omega
          subst hk0
          simp

lemma simLoop_balChain (lps : List LoanPeriod) (c : ℚ) (ic : Bool) :
    ∀ (fuel i : ℕ) (b : ℚ), balChain b (simLoop lps c ic fuel i b).1 := by
  intro fuel
  induction fuel with
  | zero => intro i b; simp [simLoop, balChain]
  | succ fuel ih =>
    intro i b
    simp only [simLoop]
    split
    · simp [balChain]
    · cases hfind : lps.find? (fun per => i < per.endP) with
      | none => simp [balChain]
      | some per =>
        simp only []
        split
        · exact ⟨rfl, ih (i + 1) _⟩
        · exact ⟨by ring, trivial⟩

lemma balChain_mono :
    ∀ (es : List Entry) (b : ℚ), balChain b es → (∀ e ∈ es, 0 ≤ e.repayed) →
      List.Chain' (fun a e => e.balance ≤ a.balance) es := by
  intro es
  induction es with
  | nil => intro b _ _; simp
  | cons e es ih =>
    intro b hbc hrep
    obtain ⟨hb, hrest⟩ := hbc
    have hch := ih e.balance hrest fun x hx => hrep x (List.mem_cons_of_mem _ hx)
    cases es with
    | nil => simp
    | cons e2 es2 =>
      rw [List.chain'_cons]
      refine ⟨?_, hch⟩
      have h1 := hrest.1
      have h2 := hrep e2 (by simp)
      linarith

/-- Claim C3 (amended): the simulation always terminates (it is a total
function of its fuel) and, since the source's guard `i <= 180` admits the
181 indices `0, …, 180`, the payment plan contains at most 181 entries —
not 180 as claimed; the loop also stops at once when the balance is below
0.01. -/
theorem plan_length_bounded_and_small_balance_stops :
    (∀ (p ppy : ℚ) (o : Option ScheduleOptions),
        (cashflow p ppy o).paymentplan.length ≤ 181) ∧
    (∀ (lps : List LoanPeriod) (c : ℚ) (ic : Bool) (fuel i : ℕ) (b : ℚ),
        b < 1 / 100 → simLoop lps c ic fuel i b = ([], i)) := by
  constructor
  · intro p ppy o
    exact simLoop_length_le (lpsOf p ppy (optOf o)) (optOf o).costs (optOf o).includeCost
      181 0 (principalOf p (optOf o))
  · intro lps c ic fuel i b hb
    cases fuel with
    | zero => rfl
    | succ fuel =>
      simp only [simLoop]
      rw [if_pos hb]

/-- Claim C10: the returned `duration` equals the number of payment-plan
entries, and the k-th entry (0-based `k`) carries period index `k + 1`. -/
theorem duration_and_period_indices (p ppy : ℚ) (o : Option ScheduleOptions) :
    (cashflow p ppy o).duration = (cashflow p ppy o).paymentplan.length ∧
    ∀ k, k < (cashflow p ppy o).paymentplan.length →
      ((cashflow p ppy o).paymentplan.getD k dEntry).i = k + 1 := by
  obtain ⟨h1, h2⟩ := simLoop_index_spec (lpsOf p ppy (optOf o)) (optOf o).costs
    (optOf o).includeCost 181 0 (principalOf p (optOf o))
  refine ⟨by simpa using h1, fun k hk => ?_⟩
  have hh := h2 k hk
  simpa using hh

/-- Claim C8: the result's `cashflow` field is the negated drawn amount
`-p` (the facade's own argument, not the cost-inflated `principal`)
followed by each payment-plan entry's total payment in order. -/
theorem cashflow_vector_eq (p ppy : ℚ) (o : Option ScheduleOptions) :
    (cashflow p ppy o).cashflow =
      -p :: ((cashflow p ppy o).paymentplan.map fun e => e.payment) := rfl

/-! ## Segment payment resolution (claim C9) -/

lemma mkLoanPeriods_payment (ppy : ℚ) (rounded : Bool) (principals apfs : List ℚ) :
    ∀ (segs : List Seg) (j i0 e0 : ℕ), j < segs.length →
      ((mkLoanPeriods ppy rounded principals apfs segs i0 e0).getD j dLP).payment =
        if (segs.getD j dSeg).usePayment then (segs.getD j dSeg).payment
        else if rounded then (⌈rawPayment ppy principals apfs (segs.getD j dSeg) (i0 + j)⌉ : ℚ)
        else rawPayment ppy principals apfs (segs.getD j dSeg) (i0 + j) := by
  intro segs
  induction segs with
  | nil => intro j i0 e0 h; simp at h
  | cons seg rest ih =>
    intro j i0 e0 hj
    cases j with
    | zero =>
      simp only [mkLoanPeriods, List.getD_cons_zero, Nat.add_zero]
      cases hu : seg.usePayment with
      | true => simp [hu]
      | false =>
        cases hr : rounded with
        | true => simp [hu, hr]
        | false => simp [hu, hr]
    | succ j =>
      simp only [mkLoanPeriods, List.getD_cons_succ]
      rw [ih j (i0 + 1) (e0 + seg.periods) (by simpa using hj)]
      rw [show i0 + 1 + j = i0 + (j + 1) from by omega]

/-- Claim C9: in the schedule generator's segment resolution, a fixed
(`usePayment`) segment's payment is stored unchanged whatever the rounding
flag says, while a computed segment's payment is the raw principal-split
formula, ceiled to the next whole unit exactly when `roundedPayment` is
set. -/
theorem segment_payment_rounding (ppy : ℚ) (rounded : Bool) (principals apfs : List ℚ)
    (segs : List Seg) (j : ℕ) (hj : j < segs.length) :
    ((mkLoanPeriods ppy rounded principals apfs segs 0 0).getD j dLP).payment =
      if (segs.getD j dSeg).usePayment then (segs.getD j dSeg).payment
      else if rounded then (⌈rawPayment ppy principals apfs (segs.getD j dSeg) j⌉ : ℚ)
      else rawPayment ppy principals apfs (segs.getD j dSeg) j := by
  have h := mkLoanPeriods_payment ppy rounded principals apfs segs j 0 0 hj
  simpa using h

/-! ## One-step unfolding lemmas and concrete schedule evaluations -/

lemma simLoop_step_rec (lps : List LoanPeriod) (c : ℚ) (ic : Bool) (per : LoanPeriod)
    (fuel i : ℕ) (b : ℚ) (hb : ¬ b < 1 / 100)
    (hfind : lps.find? (fun q => decide (i < q.endP)) = some per)
    (hgt : b > per.payment - per.interest * b) :
    simLoop lps c ic (fuel + 1) i b =
      (⟨i + 1, per.payment - per.interest * b,
          per.fee + (if i = 0 ∧ ic = false then c else 0), per.interest * b,
          per.payment + per.fee + (if i = 0 ∧ ic = false then c else 0),
          b - (per.payment - per.interest * b)⟩ ::
        (simLoop lps c ic fuel (i + 1) (b - (per.payment - per.interest * b))).1,
        (simLoop lps c ic fuel (i + 1) (b - (per.payment - per.interest * b))).2) := by
  simp only [simLoop]
  rw [if_neg hb, hfind]
  simp only []
  rw [if_pos hgt]

lemma simLoop_step_final (lps : List LoanPeriod) (c : ℚ) (ic : Bool) (per : LoanPeriod)
    (fuel i : ℕ) (b : ℚ) (hb : ¬ b < 1 / 100)
    (hfind : lps.find? (fun q => decide (i < q.endP)) = some per)
    (hle : ¬ b > per.payment - per.interest * b) :
    simLoop lps c ic (fuel + 1) i b =
      ([⟨i + 1, b, per.fee + (if i = 0 ∧ ic = false then c else 0), per.interest * b,
          b + per.interest * b + (per.fee + (if i = 0 ∧ ic = false then c else 0)), 0⟩],
        i + 1) := by
  simp only [simLoop]
  rw [if_neg hb, hfind]
  simp only []
  rw [if_neg hle]

lemma lps_w : lpsOf 100 1 ⟨0, [⟨2, 0, 60, 0, true⟩], true, false⟩ = [⟨0, 0, 60, 2⟩] := by
  simp [lpsOf, mkLoanPeriods]

/-- The concrete schedule used by several witnesses: principal 100, one
zero-interest fixed-payment-60 segment of 2 periods, no costs — the plan is
one full period (balance 40) and one final period (balance 0). -/
lemma witness_plan_eval :
    (cashflow 100 1 (some ⟨0, [⟨2, 0, 60, 0, true⟩], true, false⟩)).paymentplan =
      [⟨1, 60, 0, 0, 60, 40⟩, ⟨2, 40, 0, 0, 40, 0⟩] := by
  show (simLoop (lpsOf 100 1 ⟨0, [⟨2, 0, 60, 0, true⟩], true, false⟩) 0 true 181 0
      (principalOf 100 ⟨0, [⟨2, 0, 60, 0, true⟩], true, false⟩)).1 =
    [⟨1, 60, 0, 0, 60, 40⟩, ⟨2, 40, 0, 0, 40, 0⟩]
  rw [lps_w, show principalOf 100 ⟨0, [⟨2, 0, 60, 0, true⟩], true, false⟩ = 100 from by
    simp [principalOf]]
  rw [show (181 : ℕ) = 180 + 1 from rfl]
  rw [simLoop_step_rec _ _ _ ⟨0, 0, 60, 2⟩ _ _ _ (by norm_num)
    (by rw [List.find?_cons_of_pos] <;> simp) (by norm_num)]
  norm_num
  rw [show (180 : ℕ) = 179 + 1 from rfl]
  rw [simLoop_step_final _ _ _ ⟨0, 0, 60, 2⟩ _ _ _ (by norm_num)
    (by rw [List.find?_cons_of_pos] <;> simp) (by norm_num)]
  norm_num

lemma simLoop_const_zero :
    ∀ (fuel i : ℕ), i + fuel ≤ 200 →
      (simLoop [⟨0, 0, 0, 200⟩] 0 true fuel i 100).1.length = fuel := by
  intro fuel
  induction fuel with
  | zero => intro i h; simp [simLoop]
  | succ fuel ih =>
    intro i h
    have hfind : List.find? (fun per => decide (i < per.endP))
        [(⟨0, 0, 0, 200⟩ : LoanPeriod)] = some ⟨0, 0, 0, 200⟩ := by
      apply List.find?_cons_of_pos
      simp
      omega
    simp only [simLoop]
    rw [if_neg (by norm_num)]
    rw [hfind]
    simp only []
    rw [if_pos (by norm_num)]
    rw [List.length_cons]
    norm_num
    exact ih (i + 1) (by omega)

lemma lps_cex3 : lpsOf 100 1 ⟨0, [⟨200, 0, 0, 0, true⟩], true, false⟩ = [⟨0, 0, 0, 200⟩] := by
  simp [lpsOf, mkLoanPeriods]

/-- Claim C3 counterexample: a 200-period fixed segment with zero payment,
zero interest and zero fee keeps the balance pinned at the principal, so
the loop guard `i <= 180` runs for the 181 indices `0, …, 180` and the plan
gets 181 entries — the claimed cap of "at most 180 entries" is violated. -/
theorem plan_with_181_entries :
    (cashflow 100 1 (some ⟨0, [⟨200, 0, 0, 0, true⟩], true, false⟩)).paymentplan.length = 181 := by
  show (simLoop (lpsOf 100 1 ⟨0, [⟨200, 0, 0, 0, true⟩], true, false⟩) 0 true 181 0
      (principalOf 100 ⟨0, [⟨200, 0, 0, 0, true⟩], true, false⟩)).1.length = 181
  rw [lps_cex3, show principalOf 100 ⟨0, [⟨200, 0, 0, 0, true⟩], true, false⟩ = 100 from by
    simp [principalOf]]
  exact simLoop_const_zero 181 0 (by omega)

lemma lps_cex5 : lpsOf 1000 12 ⟨0, [⟨24, 1200, 1, 0, true⟩], true, false⟩ = [⟨1, 0, 1, 24⟩] := by
  simp [lpsOf, mkLoanPeriods]
  norm_num

/-- Claim C5 counterexample: on principal 1000 with a fixed payment of 1
against a 100% periodic rate (annual 1200% at 12 periods per year), the
first plan entry records balance 1999 and the second 3997: the remaining
balance strictly increases, refuting the claimed monotone non-increase. -/
theorem balance_increases_example :
    ((cashflow 1000 12 (some ⟨0, [⟨24, 1200, 1, 0, true⟩], true, false⟩)).paymentplan.getD 0
        dEntry).balance <
      ((cashflow 1000 12 (some ⟨0, [⟨24, 1200, 1, 0, true⟩], true, false⟩)).paymentplan.getD 1
        dEntry).balance := by
  have hplan : (cashflow 1000 12 (some ⟨0, [⟨24, 1200, 1, 0, true⟩], true, false⟩)).paymentplan =
      ⟨1, 1 - 1000, 0, 1000, 1, 1999⟩ :: ⟨2, 1 - 1999, 0, 1999, 1, 3997⟩ ::
        (simLoop [⟨1, 0, 1, 24⟩] 0 true 179 2 3997).1 := by
    show (simLoop (lpsOf 1000 12 ⟨0, [⟨24, 1200, 1, 0, true⟩], true, false⟩) 0 true 181 0
        (principalOf 1000 ⟨0, [⟨24, 1200, 1, 0, true⟩], true, false⟩)).1 = _
    rw [lps_cex5, show principalOf 1000 ⟨0, [⟨24, 1200, 1, 0, true⟩], true, false⟩ = 1000 from by
      simp [principalOf]]
    rw [show (181 : ℕ) = 180 + 1 from rfl]
    rw [simLoop_step_rec _ _ _ ⟨1, 0, 1, 24⟩ _ _ _ (by norm_num)
      (by rw [List.find?_cons_of_pos] <;> simp) (by norm_num)]
    norm_num
    rw [show (180 : ℕ) = 179 + 1 from rfl]
    rw [simLoop_step_rec _ _ _ ⟨1, 0, 1, 24⟩ _ _ _ (by norm_num)
      (by rw [List.find?_cons_of_pos] <;> simp) (by norm_num)]
    norm_num
  rw [hplan]
  norm_num

/-- Witness for C3 (amended): the two-period witness schedule respects the
181-entry bound, and a loop started below the 0.01 balance threshold stops
immediately. -/
theorem plan_length_bounded_witness :
    (cashflow 100 1 (some ⟨0, [⟨2, 0, 60, 0, true⟩], true, false⟩)).paymentplan.length ≤ 181 ∧
      simLoop [] 0 true 181 0 0 = ([], 0) :=
  ⟨plan_length_bounded_and_small_balance_stops.1 100 1 _,
    plan_length_bounded_and_small_balance_stops.2 [] 0 true 181 0 0 (by norm_num)⟩

/-- Witness for C10: in the two-period witness schedule the second entry
(0-based index 1) carries period index 2. -/
theorem duration_and_period_indices_witness :
    ((cashflow 100 1 (some ⟨0, [⟨2, 0, 60, 0, true⟩], true, false⟩)).paymentplan.getD 1
      dEntry).i = 2 := by
  have h := (duration_and_period_indices 100 1 (some ⟨0, [⟨2, 0, 60, 0, true⟩], true, false⟩)).2 1
    (by rw [witness_plan_eval]; norm_num)
  simpa using h

/-- Witness for C9: an unresolved segment whose computed raw payment is
1234.1 is stored as 1235 under rounding, while a fixed segment with payment
1234.1 is stored unchanged even with rounding requested. -/
theorem segment_payment_rounding_witness :
    ((mkLoanPeriods 1 true [12341 / 10, 0] [1] [⟨1, 0, 77, 0, false⟩] 0 0).getD 0 dLP).payment
        = 1235 ∧
      ((mkLoanPeriods 1 true [12341 / 10, 0] [1] [⟨1, 0, 12341 / 10, 0, true⟩] 0 0).getD 0
        dLP).payment = 12341 / 10 := by
  constructor
  · have h := segment_payment_rounding 1 true [12341 / 10, 0] [1] [⟨1, 0, 77, 0, false⟩] 0
      (by norm_num)
    rw [h]
    norm_num [rawPayment]
    rw [show (⌈(12341 / 10 : ℚ)⌉ : ℤ) = 1235 from by rw [Int.ceil_eq_iff] <;> norm_num]
    norm_num
  · have h := segment_payment_rounding 1 true [12341 / 10, 0] [1] [⟨1, 0, 12341 / 10, 0, true⟩] 0
      (by norm_num)
    rw [h]
    norm_num

lemma simLoop_zero_only_last (lps : List LoanPeriod) (c : ℚ) (ic : Bool) :
    ∀ (fuel i : ℕ) (b : ℚ) (k : ℕ), k + 1 < (simLoop lps c ic fuel i b).1.length →
      0 < ((simLoop lps c ic fuel i b).1.getD k dEntry).balance := by
  intro fuel
  induction fuel with
  | zero => intro i b k hk; simp [simLoop] at hk
  | succ fuel ih =>
    intro i b k hk
    by_cases hb : b < 1 / 100
    · simp only [simLoop] at hk
      rw [if_pos hb] at hk
      simp at hk
    · cases hfind : lps.find? (fun per => decide (i < per.endP)) with
      | none =>
        simp only [simLoop] at hk
        rw [if_neg hb, hfind] at hk
        simp at hk
      | some per =>
        by_cases hgt : b > per.payment - per.interest * b
        · have hstep := simLoop_step_rec lps c ic per fuel i b hb hfind hgt
          rw [hstep] at hk ⊢
          simp only [List.length_cons] at hk
          cases k with
          | zero =>
            simp only [List.getD_cons_zero]
            linarith
          | succ k =>
            simp only [List.getD_cons_succ]
            exact ih (i + 1) _ k (by omega)
        · have hstep := simLoop_step_final lps c ic per fuel i b hb hfind hgt
          rw [hstep] at hk
          simp at hk

/-- Claim C5 (amended): every payment-plan entry's remaining balance equals
the running balance before that entry (starting from the computed
principal) minus the entry's recorded repayment; the balance sequence is
non-increasing whenever every recorded repayment is nonnegative; a zero
remaining balance can occur nowhere but at the last entry; and the last
entry records exactly 0 precisely when the simulation ends through the
final-payment branch (balance no greater than payment minus interest):
that branch always writes exactly 0, while the ordinary declining-balance
branch — including the step that ends a run at the period cap or right
before schedule exhaustion — always writes a strictly positive balance.
(As originally claimed — non-increasing with a final 0 for all valid
options — the invariant fails, see the counterexample.) -/
theorem balance_chain_and_monotone (p ppy : ℚ) (o : Option ScheduleOptions) :
    balChain (cashflow p ppy o).principal (cashflow p ppy o).paymentplan ∧
      ((∀ e ∈ (cashflow p ppy o).paymentplan, 0 ≤ e.repayed) →
        List.Chain' (fun a e => e.balance ≤ a.balance) (cashflow p ppy o).paymentplan) ∧
      (∀ k, k + 1 < (cashflow p ppy o).paymentplan.length →
        0 < ((cashflow p ppy o).paymentplan.getD k dEntry).balance) ∧
      (∀ (lps : List LoanPeriod) (c : ℚ) (ic : Bool) (per : LoanPeriod) (fuel i : ℕ) (b : ℚ),
        ¬ b < 1 / 100 → lps.find? (fun q => decide (i < q.endP)) = some per →
        ¬ b > per.payment - per.interest * b →
          ((simLoop lps c ic (fuel + 1) i b).1.getLastD dEntry).balance = 0) ∧
      (∀ (lps : List LoanPeriod) (c : ℚ) (ic : Bool) (per : LoanPeriod) (fuel i : ℕ) (b : ℚ),
        ¬ b < 1 / 100 → lps.find? (fun q => decide (i < q.endP)) = some per →
        b > per.payment - per.interest * b →
          0 < ((simLoop lps c ic (fuel + 1) i b).1.headD dEntry).balance) := by
  have h := simLoop_balChain (lpsOf p ppy (optOf o)) (optOf o).costs (optOf o).includeCost
    181 0 (principalOf p (optOf o))
  refine ⟨h, fun hrep => balChain_mono _ _ h hrep, fun k hk => ?_, ?_, ?_⟩
  · have hh := simLoop_zero_only_last (lpsOf p ppy (optOf o)) (optOf o).costs
      (optOf o).includeCost 181 0 (principalOf p (optOf o)) k hk
    exact hh
  · intro lps c ic per fuel i b hb hfind hle
    rw [simLoop_step_final lps c ic per fuel i b hb hfind hle]
    simp
  · intro lps c ic per fuel i b hb hfind hgt
    rw [simLoop_step_rec lps c ic per fuel i b hb hfind hgt]
    simp only [List.headD_cons]
    linarith

/-- Witness for C5 (amended): on the two-period witness schedule the
nonnegative repayments (60 then 40) make the balances 40, 0 non-increasing;
the first entry (non-last) has positive balance; the final-payment step at
balance 40 against payment 60 records balance exactly 0; and the ordinary
step at balance 100 records the positive balance 40. -/
theorem balance_chain_and_monotone_witness :
    List.Chain' (fun a e => e.balance ≤ a.balance)
        (cashflow 100 1 (some ⟨0, [⟨2, 0, 60, 0, true⟩], true, false⟩)).paymentplan ∧
      0 < ((cashflow 100 1 (some ⟨0, [⟨2, 0, 60, 0, true⟩], true,
        false⟩)).paymentplan.getD 0 dEntry).balance ∧
      ((simLoop [⟨0, 0, 60, 2⟩] 0 true (179 + 1) 1 40).1.getLastD dEntry).balance = 0 ∧
      0 < ((simLoop [⟨0, 0, 60, 2⟩] 0 true (180 + 1) 0 100).1.headD dEntry).balance := by
  refine ⟨(balance_chain_and_monotone 100 1 _).2.1 ?_,
    (balance_chain_and_monotone 100 1 (some ⟨0, [⟨2, 0, 60, 0, true⟩], true, false⟩)).2.2.1 0
      (by rw [witness_plan_eval]; norm_num),
    (balance_chain_and_monotone 100 1 (some ⟨0, [⟨2, 0, 60, 0, true⟩], true,
        false⟩)).2.2.2.1 [⟨0, 0, 60, 2⟩] 0 true ⟨0, 0, 60, 2⟩ 179 1 40 (by norm_num)
      (by rw [List.find?_cons_of_pos] <;> simp) (by norm_num),
    (balance_chain_and_monotone 100 1 (some ⟨0, [⟨2, 0, 60, 0, true⟩], true,
        false⟩)).2.2.2.2 [⟨0, 0, 60, 2⟩] 0 true ⟨0, 0, 60, 2⟩ 180 0 100 (by norm_num)
      (by rw [List.find?_cons_of_pos] <;> simp) (by norm_num)⟩
  rw [witness_plan_eval]
  intro e he
  simp only [List.mem_cons, List.not_mem_nil, or_false] at he
  rcases he with h | h <;> subst h <;> norm_num

end Aop
